import Mathlib

/-!
Shallow embedding of the keyword indexing engine of the Meeting-assistant
repository (`src/backend/keyword_indexer.py`, class `KeywordIndexer`).

Modelling decisions:
* Python strings are `List Char`; lowercasing is `Char.toLower` mapped over
  the characters; the regex `\b\w+\b` used by `_tokenize` is embedded as a
  scanner extracting maximal runs of word characters (`\w` = letter, digit
  or underscore).
* `self.index` is a `defaultdict(set)` mapping a token to a set of meeting
  ids.  We model it as a total function `List Char → Finset ℕ` defaulting
  to `∅`; a key that is absent and a key bound to the empty set are
  observationally identical in the Python code (both `search_keywords` and
  `get_relevant_notes` guard with `if keyword in self.index` and then only
  iterate over the set, so an empty set behaves exactly like a missing key).
* `self.meeting_notes : Dict[int, str]` becomes `ℕ → Option (List Char)`.
* The `for` loops mutating the dictionaries become `List.foldl` over the
  token list, updating the function.
* Python's `sorted(..., key=lambda x: x[1], reverse=True)` sorts by score
  descending; the order of equal-score entries in the source depends on
  hash-based set iteration order and is unspecified, so the model fixes a
  deterministic ordering: candidate ids ascending, then a stable insertion
  sort by score descending (ties therefore stay in ascending id order).
  No claim below depends on the tie order.
* The slice `[:limit]` takes a Python `int`, so `limit` is an `Int` and
  `pySlice` reproduces Python slice semantics for negative stops.
-/

namespace MeetingIndex

/-- A word character in the sense of the regex `\w` used by `_tokenize`:
a letter, a digit, or an underscore. -/
def isWordChar (c : Char) : Bool := c.isAlphanum || c == '_'

/-- Scanner extracting the maximal runs of word characters from a character
list, embedding `re.findall(r'\b\w+\b', text)`: `acc` holds the (reversed)
run currently being read. -/
def wordRunsAux : List Char → List Char → List (List Char)
  | [], acc => if acc.isEmpty then [] else [acc.reverse]
  | c :: cs, acc =>
    if isWordChar c then wordRunsAux cs (c :: acc)
    else if acc.isEmpty then wordRunsAux cs [] else acc.reverse :: wordRunsAux cs []

/-- The maximal word-character runs of a character list, in order. -/
def wordRuns (l : List Char) : List (List Char) := wordRunsAux l []

/-- Embeds `KeywordIndexer._tokenize`: lowercase the text, extract the
maximal word-character runs, and keep those of length `> 2`. -/
def tokenize (text : List Char) : List (List Char) :=
  (wordRuns (text.map Char.toLower)).filter (fun w => 2 < w.length)

/-- The state of a `KeywordIndexer` object: the inverted index
(`self.index`, token → posting set) and the document-text store
(`self.meeting_notes`, meeting id → raw text). -/
@[ext]
structure KeywordIndexer where
  index : List Char → Finset ℕ
  meeting_notes : ℕ → Option (List Char)

/-- The state built by `KeywordIndexer.__init__`: empty posting sets and an
empty document-text store. -/
def initIndexer : KeywordIndexer :=
  { index := fun _ => ∅, meeting_notes := fun _ => none }

/-- Embeds `KeywordIndexer.index_meeting`: store the notes under
`meeting_id`, then add `meeting_id` to the posting set of every token of
the notes. -/
def index_meeting (st : KeywordIndexer) (meeting_id : ℕ) (notes : List Char) :
    KeywordIndexer :=
  { index := (tokenize notes).foldl
      (fun idx w => fun t => if t = w then insert meeting_id (idx t) else idx t)
      st.index,
    meeting_notes := fun d => if d = meeting_id then some notes else st.meeting_notes d }

/-- Embeds `KeywordIndexer.remove_meeting`: if `meeting_id` is stored,
discard it from the posting set of every token of its stored notes and
delete its document-text entry; otherwise do nothing. -/
def remove_meeting (st : KeywordIndexer) (meeting_id : ℕ) : KeywordIndexer :=
  match st.meeting_notes meeting_id with
  | none => st
  | some notes =>
    { index := (tokenize notes).foldl
        (fun idx w => fun t => if t = w then (idx t).erase meeting_id else idx t)
        st.index,
      meeting_notes := fun d => if d = meeting_id then none else st.meeting_notes d }

/-- Embeds `KeywordIndexer.search_keywords`: tokenize the query and return
the union of the posting sets of the query tokens.  In the source the
result is `list(meeting_ids)` built from a Python set, so the result is a
`Finset ℕ` (each id appears once, order unspecified). -/
def search_keywords (st : KeywordIndexer) (query : List Char) : Finset ℕ :=
  let keywords := tokenize query
  if keywords.isEmpty then ∅
  else keywords.foldl (fun acc k => acc ∪ st.index k) ∅

/-- The score accumulation loop of `get_relevant_notes`
(`meeting_scores[meeting_id] += 1` for every occurrence of a query keyword
whose posting set contains the meeting): score as a total function,
defaulting to `0` (`defaultdict(int)`). -/
def scoreFold (st : KeywordIndexer) (keywords : List (List Char)) : ℕ → ℕ :=
  keywords.foldl
    (fun sc k => fun d => if d ∈ st.index k then sc d + 1 else sc d)
    (fun _ => 0)

/-- The set of meeting ids receiving at least one score increment in
`get_relevant_notes` (the key set of `meeting_scores`). -/
def candidateFold (st : KeywordIndexer) (keywords : List (List Char)) : Finset ℕ :=
  keywords.foldl (fun acc k => acc ∪ st.index k) ∅

/-- Score-descending comparison used to embed
`sorted(..., key=lambda x: x[1], reverse=True)`. -/
def scoreGE (score : ℕ → ℕ) (a b : ℕ) : Prop := score b ≤ score a

instance (score : ℕ → ℕ) : DecidableRel (scoreGE score) :=
  fun _ _ => Nat.decLe _ _

instance (score : ℕ → ℕ) : IsTotal ℕ (scoreGE score) :=
  ⟨fun _ _ => Nat.le_total _ _⟩

instance (score : ℕ → ℕ) : IsTrans ℕ (scoreGE score) :=
  ⟨fun _ _ _ h1 h2 => Nat.le_trans h2 h1⟩

/-- Python list slicing `l[:stop]` for an integer `stop`: a nonnegative
stop takes the first `stop` elements (clamped to the length); a negative
stop drops the last `|stop|` elements (empty when `|stop| ≥ length`). -/
def pySlice {α : Type} (l : List α) (stop : Int) : List α :=
  if stop < 0 then l.take (l.length - stop.natAbs) else l.take stop.toNat

/-- Linearization of a finite set of ids by repeatedly extracting the
minimum, with explicit fuel so that the recursion is structural.  This is
the model's deterministic stand-in for Python's unspecified dict/set
iteration order. -/
def ascListAux : ℕ → Finset ℕ → List ℕ
  | 0, _ => []
  | fuel + 1, s =>
    if h : s.Nonempty then s.min' h :: ascListAux fuel (s.erase (s.min' h))
    else []

/-- The elements of a finite set of ids as a list in ascending order. -/
def finsetAscList (s : Finset ℕ) : List ℕ := ascListAux s.card s

/-- The score-sorted candidate list of `get_relevant_notes`: candidates in
ascending id order, then stably sorted by score descending. -/
def rankedList (st : KeywordIndexer) (keywords : List (List Char)) : List ℕ :=
  (finsetAscList (candidateFold st keywords)).insertionSort
    (scoreGE (scoreFold st keywords))

/-- The result dictionary built for one meeting id by `get_relevant_notes`:
`{"meeting_id": mid, "score": score, "notes": self.meeting_notes.get(mid, "")}`. -/
def rankedEntry (st : KeywordIndexer) (keywords : List (List Char)) (d : ℕ) :
    ℕ × ℕ × List Char :=
  (d, scoreFold st keywords d, (st.meeting_notes d).getD [])

/-- Embeds `KeywordIndexer.get_relevant_notes`: tokenize the query, score
every meeting by the number of query keyword occurrences whose posting set
contains it, sort the scored meetings by score descending, truncate with
the Python slice `[:limit]`, and return `(meeting_id, score, notes)`
triples. -/
def get_relevant_notes (st : KeywordIndexer) (query : List Char) (limit : Int) :
    List (ℕ × ℕ × List Char) :=
  let keywords := tokenize query
  if keywords.isEmpty then []
  else (pySlice (rankedList st keywords) limit).map (rankedEntry st keywords)

/-! ### Closed forms for the mutation loops -/

theorem foldl_add_index (ws : List (List Char)) (x : ℕ) :
    ∀ (idx : List Char → Finset ℕ) (t : List Char),
      (ws.foldl (fun idx w => fun u => if u = w then insert x (idx u) else idx u) idx) t
        = if t ∈ ws then insert x (idx t) else idx t := by
  induction ws with
  | nil => intro idx t; simp
  | cons w ws ih =>
    intro idx t
    rw [List.foldl_cons, ih]
    by_cases hw : t = w
    · subst hw
      by_cases hmem : t ∈ ws
      · simp [hmem, Finset.insert_idem]
      · simp [hmem]
    · by_cases hmem : t ∈ ws
      · simp [hmem, hw]
      · simp [hmem, hw]

theorem foldl_erase_index (ws : List (List Char)) (x : ℕ) :
    ∀ (idx : List Char → Finset ℕ) (t : List Char),
      (ws.foldl (fun idx w => fun u => if u = w then (idx u).erase x else idx u) idx) t
        = if t ∈ ws then (idx t).erase x else idx t := by
  induction ws with
  | nil => intro idx t; simp
  | cons w ws ih =>
    intro idx t
    rw [List.foldl_cons, ih]
    by_cases hw : t = w
    · subst hw
      by_cases hmem : t ∈ ws
      · simp [hmem, Finset.erase_idem]
      · simp [hmem]
    · by_cases hmem : t ∈ ws
      · simp [hmem, hw]
      · simp [hmem, hw]

theorem index_meeting_index (st : KeywordIndexer) (x : ℕ) (text : List Char)
    (t : List Char) :
    (index_meeting st x text).index t
      = if t ∈ tokenize text then insert x (st.index t) else st.index t :=
  foldl_add_index (tokenize text) x st.index t

theorem index_meeting_notes (st : KeywordIndexer) (x : ℕ) (text : List Char) (d : ℕ) :
    (index_meeting st x text).meeting_notes d
      = if d = x then some text else st.meeting_notes d := rfl

theorem remove_meeting_of_none {st : KeywordIndexer} {x : ℕ}
    (h : st.meeting_notes x = none) : remove_meeting st x = st := by
  simp [remove_meeting, h]

theorem remove_meeting_index {st : KeywordIndexer} {x : ℕ} {notes : List Char}
    (h : st.meeting_notes x = some notes) (t : List Char) :
    (remove_meeting st x).index t
      = if t ∈ tokenize notes then (st.index t).erase x else st.index t := by
  simp only [remove_meeting, h]
  exact foldl_erase_index (tokenize notes) x st.index t

theorem remove_meeting_notes {st : KeywordIndexer} {x : ℕ} {notes : List Char}
    (h : st.meeting_notes x = some notes) (d : ℕ) :
    (remove_meeting st x).meeting_notes d
      = if d = x then none else st.meeting_notes d := by
  simp only [remove_meeting, h]

/-! ### Closed forms for the query loops -/

theorem foldl_union_mem (st : KeywordIndexer) (ks : List (List Char)) :
    ∀ (acc : Finset ℕ) (d : ℕ),
      (d ∈ ks.foldl (fun acc k => acc ∪ st.index k) acc)
        ↔ d ∈ acc ∨ ∃ k ∈ ks, d ∈ st.index k := by
  induction ks with
  | nil => intro acc d; simp
  | cons k ks ih =>
    intro acc d
    rw [List.foldl_cons, ih]
    simp only [Finset.mem_union, List.mem_cons]
    constructor
    · rintro ((h | h) | ⟨k', hk', h⟩)
      · exact Or.inl h
      · exact Or.inr ⟨k, Or.inl rfl, h⟩
      · exact Or.inr ⟨k', Or.inr hk', h⟩
    · rintro (h | ⟨k', (rfl | hk'), h⟩)
      · exact Or.inl (Or.inl h)
      · exact Or.inl (Or.inr h)
      · exact Or.inr ⟨k', hk', h⟩

theorem mem_candidateFold (st : KeywordIndexer) (ks : List (List Char)) (d : ℕ) :
    d ∈ candidateFold st ks ↔ ∃ k ∈ ks, d ∈ st.index k := by
  rw [candidateFold, foldl_union_mem]
  simp

theorem mem_search_iff (st : KeywordIndexer) (q : List Char) (d : ℕ) :
    d ∈ search_keywords st q ↔ ∃ k ∈ tokenize q, d ∈ st.index k := by
  rw [search_keywords]
  by_cases h : (tokenize q).isEmpty
  · rw [List.isEmpty_iff] at h
    simp [h]
  · rw [if_neg (by simp [h]), foldl_union_mem]
    simp

theorem scoreFold_apply (st : KeywordIndexer) (ks : List (List Char)) :
    ∀ (sc : ℕ → ℕ) (d : ℕ),
      (ks.foldl (fun sc k => fun d => if d ∈ st.index k then sc d + 1 else sc d) sc) d
        = sc d + (ks.filter (fun k => decide (d ∈ st.index k))).length := by
  induction ks with
  | nil => intro sc d; simp
  | cons k ks ih =>
    intro sc d
    rw [List.foldl_cons, ih]
    by_cases h : d ∈ st.index k
    · simp [List.filter_cons, h]
      omega
    · simp [List.filter_cons, h]

theorem scoreFold_eq (st : KeywordIndexer) (ks : List (List Char)) (d : ℕ) :
    scoreFold st ks d = (ks.filter (fun k => decide (d ∈ st.index k))).length := by
  rw [scoreFold, scoreFold_apply, Nat.zero_add]

theorem scoreFold_pos_iff (st : KeywordIndexer) (ks : List (List Char)) (d : ℕ) :
    0 < scoreFold st ks d ↔ ∃ k ∈ ks, d ∈ st.index k := by
  rw [scoreFold_eq, ← List.countP_eq_length_filter, List.countP_pos_iff]
  simp

/-! ### The candidate linearization -/

theorem ascListAux_mem :
    ∀ (fuel : ℕ) (s : Finset ℕ), s.card ≤ fuel →
      ∀ a, a ∈ ascListAux fuel s ↔ a ∈ s := by
  intro fuel
  induction fuel with
  | zero =>
    intro s hs a
    have hempty : s = ∅ := Finset.card_eq_zero.mp (Nat.le_zero.mp hs)
    subst hempty
    simp [ascListAux]
  | succ fuel ih =>
    intro s hs a
    by_cases h : s.Nonempty
    · have hmin : s.min' h ∈ s := Finset.min'_mem s h
      have hcard : (s.erase (s.min' h)).card ≤ fuel := by
        rw [Finset.card_erase_of_mem hmin]
        omega
      rw [ascListAux, dif_pos h, List.mem_cons, ih _ hcard, Finset.mem_erase]
      constructor
      · rintro (rfl | ⟨_, ha⟩)
        · exact hmin
        · exact ha
      · intro ha
        by_cases hq : a = s.min' h
        · exact Or.inl hq
        · exact Or.inr ⟨hq, ha⟩
    · rw [Finset.not_nonempty_iff_eq_empty] at h
      subst h
      simp [ascListAux]

theorem ascListAux_length :
    ∀ (fuel : ℕ) (s : Finset ℕ), s.card ≤ fuel →
      (ascListAux fuel s).length = s.card := by
  intro fuel
  induction fuel with
  | zero =>
    intro s hs
    have hempty : s = ∅ := Finset.card_eq_zero.mp (Nat.le_zero.mp hs)
    subst hempty
    simp [ascListAux]
  | succ fuel ih =>
    intro s hs
    by_cases h : s.Nonempty
    · have hmin : s.min' h ∈ s := Finset.min'_mem s h
      have hcard : (s.erase (s.min' h)).card ≤ fuel := by
        rw [Finset.card_erase_of_mem hmin]
        omega
      have hpos : 0 < s.card := Finset.card_pos.mpr h
      rw [ascListAux, dif_pos h, List.length_cons, ih _ hcard,
        Finset.card_erase_of_mem hmin]
      omega
    · rw [Finset.not_nonempty_iff_eq_empty] at h
      subst h
      simp [ascListAux]

theorem mem_finsetAscList (s : Finset ℕ) (a : ℕ) :
    a ∈ finsetAscList s ↔ a ∈ s :=
  ascListAux_mem s.card s le_rfl a

theorem finsetAscList_length (s : Finset ℕ) :
    (finsetAscList s).length = s.card :=
  ascListAux_length s.card s le_rfl

/-! ### The ranked candidate list -/

theorem rankedList_perm (st : KeywordIndexer) (ks : List (List Char)) :
    List.Perm (rankedList st ks) (finsetAscList (candidateFold st ks)) :=
  List.perm_insertionSort _ _

theorem mem_rankedList (st : KeywordIndexer) (ks : List (List Char)) (d : ℕ) :
    d ∈ rankedList st ks ↔ d ∈ candidateFold st ks := by
  rw [(rankedList_perm st ks).mem_iff, mem_finsetAscList]

theorem rankedList_length (st : KeywordIndexer) (ks : List (List Char)) :
    (rankedList st ks).length = (candidateFold st ks).card := by
  rw [(rankedList_perm st ks).length_eq, finsetAscList_length]

theorem rankedList_sorted (st : KeywordIndexer) (ks : List (List Char)) :
    (rankedList st ks).Sorted (scoreGE (scoreFold st ks)) :=
  List.sorted_insertionSort _ _

/-! ### The scanner agrees with splitting on non-word characters -/

theorem modifyHead_nil_append (X : List (List Char)) :
    X.modifyHead (fun r => [] ++ r) = X := by
  cases X <;> simp

theorem wordRunsAux_eq (l : List Char) :
    ∀ acc : List Char,
      wordRunsAux l acc
        = ((l.splitOnP (fun c => !isWordChar c)).modifyHead (acc.reverse ++ ·)).filter
            (fun r => !r.isEmpty) := by
  induction l with
  | nil =>
    intro acc
    rw [List.splitOnP_nil]
    cases acc with
    | nil => simp [wordRunsAux]
    | cons a as => simp [wordRunsAux, List.modifyHead]
  | cons c cs ih =>
    intro acc
    rw [List.splitOnP_cons]
    cases hc : isWordChar c with
    | true =>
      rw [wordRunsAux, if_pos hc, ih (c :: acc)]
      simp only [hc, Bool.not_true, Bool.false_eq_true, if_false]
      cases cs.splitOnP (fun c => !isWordChar c) with
      | nil => simp
      | cons hd tl => simp [List.reverse_cons, List.append_assoc]
    | false =>
      rw [wordRunsAux,
        if_neg (by rw [hc]; exact Bool.false_ne_true)]
      simp only [hc, Bool.not_false, if_true]
      have hnil := ih []
      rw [List.reverse_nil, modifyHead_nil_append] at hnil
      cases acc with
      | nil => simp [hnil]
      | cons a as => simp [hnil]

theorem wordRuns_eq (l : List Char) :
    wordRuns l = (l.splitOnP (fun c => !isWordChar c)).filter (fun r => !r.isEmpty) := by
  rw [wordRuns, wordRunsAux_eq]
  rw [List.reverse_nil]
  rw [modifyHead_nil_append (l.splitOnP (fun c => !isWordChar c))]

theorem tokenize_eq_splitOnP (text : List Char) :
    tokenize text
      = ((text.map Char.toLower).splitOnP (fun c => !isWordChar c)).filter
          (fun r => 2 < r.length) := by
  rw [tokenize, wordRuns_eq, List.filter_filter]
  congr 1
  funext r
  cases r <;> simp

/-! ### The lockstep invariant -/

/-- The lockstep invariant between postings and the document-text store: a
meeting id sits in the posting set of token `t` exactly when its notes are
stored and `t` is one of their tokens. -/
def StrongInv (st : KeywordIndexer) : Prop :=
  ∀ d t, d ∈ st.index t ↔ ∃ notes, st.meeting_notes d = some notes ∧ t ∈ tokenize notes

/-- The forward direction alone: every id in a posting set is stored. -/
def WellFormed (st : KeywordIndexer) : Prop :=
  ∀ t d, d ∈ st.index t → ∃ notes, st.meeting_notes d = some notes

theorem StrongInv.wellFormed {st : KeywordIndexer} (h : StrongInv st) : WellFormed st :=
  fun t d hd => ((h d t).mp hd).imp fun _ hn => hn.1

theorem strongInv_init : StrongInv initIndexer := by
  intro d t
  simp [initIndexer]

theorem strongInv_add {st : KeywordIndexer} (h : StrongInv st) {x : ℕ}
    (hx : st.meeting_notes x = none) (text : List Char) :
    StrongInv (index_meeting st x text) := by
  intro d t
  rw [index_meeting_index, index_meeting_notes]
  by_cases hd : d = x
  · subst hd
    have hnot : d ∉ st.index t := by
      intro hmem
      obtain ⟨notes, hn, _⟩ := (h d t).mp hmem
      rw [hx] at hn
      exact Option.noConfusion hn
    rw [if_pos rfl]
    by_cases ht : t ∈ tokenize text
    · simp [ht, hnot]
    · simp [ht, hnot]
  · rw [if_neg hd]
    by_cases ht : t ∈ tokenize text
    · rw [if_pos ht, Finset.mem_insert]
      simp only [hd, false_or]
      exact h d t
    · rw [if_neg ht]
      exact h d t

theorem strongInv_remove {st : KeywordIndexer} (h : StrongInv st) (x : ℕ) :
    StrongInv (remove_meeting st x) := by
  cases hx : st.meeting_notes x with
  | none =>
    rw [remove_meeting_of_none hx]
    exact h
  | some notes =>
    intro d t
    rw [remove_meeting_index hx, remove_meeting_notes hx]
    by_cases hd : d = x
    · subst hd
      rw [if_pos rfl]
      constructor
      · intro hmem
        by_cases ht : t ∈ tokenize notes
        · rw [if_pos ht] at hmem
          exact absurd rfl (Finset.mem_erase.mp hmem).1
        · rw [if_neg ht] at hmem
          obtain ⟨n, hn, htok⟩ := (h d t).mp hmem
          rw [hx] at hn
          cases hn
          exact absurd htok ht
      · rintro ⟨n, hn, -⟩
        exact Option.noConfusion hn
    · rw [if_neg hd]
      by_cases ht : t ∈ tokenize notes
      · rw [if_pos ht, Finset.mem_erase]
        constructor
        · rintro ⟨-, hmem⟩
          exact (h d t).mp hmem
        · intro hr
          exact ⟨hd, (h d t).mpr hr⟩
      · rw [if_neg ht]
        exact h d t

/-- States reachable from a freshly constructed indexer by `index_meeting`
and `remove_meeting` calls respecting the caller discipline: never index a
meeting id that is currently stored. -/
inductive Reachable : KeywordIndexer → Prop
  | init : Reachable initIndexer
  | add (st : KeywordIndexer) (mid : ℕ) (notes : List Char) :
      Reachable st → st.meeting_notes mid = none →
      Reachable (index_meeting st mid notes)
  | remove (st : KeywordIndexer) (mid : ℕ) :
      Reachable st → Reachable (remove_meeting st mid)

theorem reachable_strongInv {st : KeywordIndexer} (h : Reachable st) : StrongInv st := by
  induction h with
  | init => exact strongInv_init
  | add st mid notes _ hfresh ih => exact strongInv_add ih hfresh notes
  | remove st mid _ ih => exact strongInv_remove ih mid

/-! ### Add-then-remove is the identity on fresh ids -/

theorem add_remove_eq {st : KeywordIndexer} {x : ℕ}
    (hpost : ∀ t, x ∉ st.index t) (hx : st.meeting_notes x = none)
    (text : List Char) :
    remove_meeting (index_meeting st x text) x = st := by
  have hsome : (index_meeting st x text).meeting_notes x = some text := by
    rw [index_meeting_notes, if_pos rfl]
  apply KeywordIndexer.ext
  · funext t
    rw [remove_meeting_index hsome, index_meeting_index]
    by_cases ht : t ∈ tokenize text
    · rw [if_pos ht, if_pos ht, Finset.erase_insert (hpost t)]
    · rw [if_neg ht, if_neg ht]
  · funext d
    rw [remove_meeting_notes hsome, index_meeting_notes]
    by_cases hd : d = x
    · rw [if_pos hd, hd, hx]
    · rw [if_neg hd, if_neg hd]

/-! ### Prefix properties of the ranked search -/

theorem pySlice_nonneg {α : Type} {limit : Int} (h : 0 ≤ limit) (l : List α) :
    pySlice l limit = l.take limit.toNat := by
  rw [pySlice, if_neg (not_lt.mpr h)]

theorem pySlice_neg {α : Type} {limit : Int} (h : limit < 0) (l : List α) :
    pySlice l limit = l.take (l.length - limit.natAbs) := by
  rw [pySlice, if_pos h]

theorem pySlice_nil {α : Type} (limit : Int) : pySlice ([] : List α) limit = [] := by
  rw [pySlice]
  split <;> simp

theorem get_relevant_notes_eq (st : KeywordIndexer) (q : List Char) (limit : Int) :
    get_relevant_notes st q limit
      = (pySlice (rankedList st (tokenize q)) limit).map (rankedEntry st (tokenize q)) := by
  rw [get_relevant_notes]
  by_cases h : (tokenize q).isEmpty
  · rw [if_pos h]
    rw [List.isEmpty_iff] at h
    rw [h]
    simp [rankedList, candidateFold, finsetAscList, ascListAux, pySlice_nil]
  · rw [if_neg h]

theorem takeRanked_length (st : KeywordIndexer) (ks : List (List Char)) (m : ℕ) :
    (((rankedList st ks).take m).map (rankedEntry st ks)).length
      = min m (candidateFold st ks).card := by
  rw [List.length_map, List.length_take, rankedList_length]

theorem takeRanked_entry {st : KeywordIndexer} {ks : List (List Char)} {m : ℕ}
    {e : ℕ × ℕ × List Char}
    (he : e ∈ ((rankedList st ks).take m).map (rankedEntry st ks)) :
    e.1 ∈ candidateFold st ks ∧ e.2.1 = scoreFold st ks e.1
      ∧ e.2.2 = (st.meeting_notes e.1).getD [] ∧ 0 < scoreFold st ks e.1 := by
  obtain ⟨d, hd, rfl⟩ := List.mem_map.mp he
  have hdL : d ∈ rankedList st ks := List.mem_of_mem_take hd
  have hdC : d ∈ candidateFold st ks := (mem_rankedList st ks d).mp hdL
  refine ⟨hdC, rfl, rfl, ?_⟩
  rw [scoreFold_pos_iff]
  exact (mem_candidateFold st ks d).mp hdC

theorem takeRanked_sorted (st : KeywordIndexer) (ks : List (List Char)) (m : ℕ) :
    ((((rankedList st ks).take m).map (rankedEntry st ks)).map
        (fun e => e.2.1)).Sorted (fun a b => b ≤ a) := by
  rw [List.map_map]
  show (((rankedList st ks).take m).map (fun d => scoreFold st ks d)).Sorted
    (fun a b => b ≤ a)
  rw [List.Sorted, List.pairwise_map]
  exact List.Pairwise.sublist (List.take_sublist m _) (rankedList_sorted st ks)

theorem takeRanked_dominance {st : KeywordIndexer} {ks : List (List Char)} {m : ℕ}
    {d : ℕ} (hd : d ∈ candidateFold st ks)
    (hnot : ∀ e ∈ ((rankedList st ks).take m).map (rankedEntry st ks), e.1 ≠ d) :
    ∀ e ∈ ((rankedList st ks).take m).map (rankedEntry st ks),
      scoreFold st ks d ≤ e.2.1 := by
  intro e he
  obtain ⟨a, ha, rfl⟩ := List.mem_map.mp he
  have hdL : d ∈ rankedList st ks := (mem_rankedList st ks d).mpr hd
  have hdtake : d ∉ (rankedList st ks).take m := by
    intro hmem
    exact hnot (rankedEntry st ks d) (List.mem_map_of_mem _ hmem) rfl
  rw [← List.take_append_drop m (rankedList st ks), List.mem_append] at hdL
  have hddrop : d ∈ (rankedList st ks).drop m := hdL.resolve_left hdtake
  have hpw := rankedList_sorted st ks
  rw [List.Sorted, ← List.take_append_drop m (rankedList st ks),
    List.pairwise_append] at hpw
  exact hpw.2.2 a ha d hddrop

/-! ### Spec-side tokenizer and whitespace facts -/

/-- The tokenizer as §4.1 of the specification words it, stated
independently of the scanner above: lowercase the input, split it at every
non-word character (so the pieces are exactly the maximal word-character
runs, with punctuation, whitespace and symbols discarded as separators),
and keep the runs of length `> 2`, in order of appearance with duplicates
preserved. -/
def tokenizeSpec (text : List Char) : List (List Char) :=
  ((text.map Char.toLower).splitOnP (fun c => !isWordChar c)).filter
    (fun r => 2 < r.length)

theorem wordRunsAux_nil_of_nonword :
    ∀ l : List Char, (∀ c ∈ l, isWordChar c = false) → wordRunsAux l [] = [] := by
  intro l
  induction l with
  | nil => intro _; rfl
  | cons c cs ih =>
    intro h
    rw [wordRunsAux,
      if_neg (by rw [h c (List.mem_cons_self c cs)]; exact Bool.false_ne_true)]
    exact ih fun a ha => h a (List.mem_cons_of_mem _ ha)

theorem tokenize_whitespace_nil {text : List Char}
    (h : ∀ c ∈ text, c.isWhitespace) : tokenize text = [] := by
  have hall : ∀ c ∈ text.map Char.toLower, isWordChar c = false := by
    intro c hc
    obtain ⟨a, ha, rfl⟩ := List.mem_map.mp hc
    have hw := h a ha
    simp [Char.isWhitespace] at hw
    rcases hw with ((rfl | rfl) | rfl) | rfl <;> decide
  rw [tokenize, wordRuns, wordRunsAux_nil_of_nonword _ hall]
  rfl

/-! ### Concrete states used to instantiate the theorems -/

/-- One meeting indexed on a fresh engine. -/
def stOne : KeywordIndexer := index_meeting initIndexer 1 "alpha beta".toList

/-- Two meetings indexed on a fresh engine, as in the specification's
ranking example. -/
def stTwo : KeywordIndexer := index_meeting stOne 2 "alpha beta gamma".toList

theorem reachable_stOne : Reachable stOne :=
  Reachable.add _ 1 _ Reachable.init rfl

theorem reachable_stTwo : Reachable stTwo :=
  Reachable.add _ 2 _ reachable_stOne rfl

/-! ### The claims -/

/-- C4: for every input string, `tokenize` (`_tokenize`) returns exactly
the maximal runs of word characters (letters, digits, underscore) of the
lowercased input whose length is strictly greater than 2, in order of
appearance and with duplicate occurrences preserved (this is the content
of `tokenizeSpec`); moreover a whitespace-only (in particular empty) input
yields the empty sequence.  The function is a pure total Lean function, so
it has no side effects and no failure conditions. -/
theorem tokenize_matches_spec :
    (∀ text : List Char, tokenize text = tokenizeSpec text)
  ∧ (∀ text : List Char, (∀ c ∈ text, c.isWhitespace) → tokenize text = []) :=
  ⟨tokenize_eq_splitOnP, fun _ h => tokenize_whitespace_nil h⟩

/-- Witness for C4: the all-whitespace hypothesis discharged on the
concrete input `"   "`, via the claim theorem. -/
theorem tokenize_matches_spec_witness : tokenize "   ".toList = [] :=
  tokenize_matches_spec.2 "   ".toList (by decide)

/-- C5: for every index state and query, a meeting id is in the result of
`search_keywords` exactly when some token of the query has it in its
posting set — the union over the query tokens of their posting sets.
Tokens absent from the mapping have posting set `∅` and contribute
nothing, a query producing zero tokens yields an empty result (the
existential over an empty token list is false), and the `Finset` result
type records that each matching id appears exactly once. -/
theorem search_union_semantics (st : KeywordIndexer) (q : List Char) (d : ℕ) :
    d ∈ search_keywords st q ↔ ∃ k ∈ tokenize q, d ∈ st.index k :=
  mem_search_iff st q d

/-- C7: removing a meeting id that is not in the document-text store
returns the state exactly unchanged — both the token→postings mapping and
the document-text store are untouched.  (Totality over all string and id
inputs holds by construction of the embedding: every operation is a total
Lean function.) -/
theorem remove_absent_noop (st : KeywordIndexer) (d : ℕ)
    (h : st.meeting_notes d = none) : remove_meeting st d = st :=
  remove_meeting_of_none h

/-- Witness for C7: `remove_meeting 999` on a freshly constructed engine,
via the claim theorem. -/
theorem remove_absent_noop_witness : remove_meeting initIndexer 999 = initIndexer :=
  remove_absent_noop initIndexer 999 rfl

/-- C2: on any lockstep-consistent state (every program-reachable state is
such) in which `x` is not present, `index_meeting x text` followed by
`remove_meeting x` is observationally identical to the starting state:
`search_keywords` and `get_relevant_notes` return the same results for
every query (and limit).  The proof shows the states are in fact equal. -/
theorem add_remove_observational (st : KeywordIndexer) (x : ℕ) (text : List Char)
    (hinv : StrongInv st) (hx : st.meeting_notes x = none) :
    (∀ q, search_keywords (remove_meeting (index_meeting st x text) x) q
        = search_keywords st q)
  ∧ (∀ q limit, get_relevant_notes (remove_meeting (index_meeting st x text) x) q limit
        = get_relevant_notes st q limit) := by
  have hpost : ∀ t, x ∉ st.index t := by
    intro t hmem
    obtain ⟨n, hn, -⟩ := (hinv x t).mp hmem
    rw [hx] at hn
    exact Option.noConfusion hn
  rw [add_remove_eq hpost hx text]
  exact ⟨fun _ => rfl, fun _ _ => rfl⟩

/-- Witness for C2: add then remove meeting 2 on the concrete one-meeting
state `stOne`, hypotheses discharged by reachability and `rfl`. -/
theorem add_remove_observational_witness :
    (∀ q, search_keywords (remove_meeting (index_meeting stOne 2 "gamma delta".toList) 2) q
        = search_keywords stOne q)
  ∧ (∀ q limit,
      get_relevant_notes (remove_meeting (index_meeting stOne 2 "gamma delta".toList) 2) q limit
        = get_relevant_notes stOne q limit) :=
  add_remove_observational stOne 2 "gamma delta".toList
    (reachable_strongInv (Reachable.add _ 1 _ Reachable.init rfl)) rfl

/-- C9: `index_meeting x text` and `remove_meeting x` do not touch any
other meeting id `y`: its stored text is unchanged, its membership in
every token's posting set is unchanged, and consequently its membership in
the result of `search_keywords` is unchanged for every query. -/
theorem frame_distinct_ids (st : KeywordIndexer) (x y : ℕ) (text : List Char)
    (h : y ≠ x) :
    (index_meeting st x text).meeting_notes y = st.meeting_notes y
  ∧ (remove_meeting st x).meeting_notes y = st.meeting_notes y
  ∧ (∀ t, y ∈ (index_meeting st x text).index t ↔ y ∈ st.index t)
  ∧ (∀ t, y ∈ (remove_meeting st x).index t ↔ y ∈ st.index t)
  ∧ (∀ q, y ∈ search_keywords (index_meeting st x text) q ↔ y ∈ search_keywords st q)
  ∧ (∀ q, y ∈ search_keywords (remove_meeting st x) q ↔ y ∈ search_keywords st q) := by
  have hadd_idx : ∀ t, y ∈ (index_meeting st x text).index t ↔ y ∈ st.index t := by
    intro t
    rw [index_meeting_index]
    by_cases ht : t ∈ tokenize text
    · rw [if_pos ht, Finset.mem_insert]
      simp [h]
    · rw [if_neg ht]
  have hrem_idx : ∀ t, y ∈ (remove_meeting st x).index t ↔ y ∈ st.index t := by
    intro t
    cases hx : st.meeting_notes x with
    | none => rw [remove_meeting_of_none hx]
    | some notes =>
      rw [remove_meeting_index hx]
      by_cases ht : t ∈ tokenize notes
      · rw [if_pos ht, Finset.mem_erase]
        simp [h]
      · rw [if_neg ht]
  refine ⟨?_, ?_, hadd_idx, hrem_idx, ?_, ?_⟩
  · rw [index_meeting_notes, if_neg h]
  · cases hx : st.meeting_notes x with
    | none => rw [remove_meeting_of_none hx]
    | some notes => rw [remove_meeting_notes hx, if_neg h]
  · intro q
    rw [mem_search_iff, mem_search_iff]
    exact exists_congr fun k => and_congr_right fun _ => hadd_idx k
  · intro q
    rw [mem_search_iff, mem_search_iff]
    exact exists_congr fun k => and_congr_right fun _ => hrem_idx k

/-- Witness for C9: meeting 1's results are untouched by adding and
removing meeting 2, on the concrete state `stOne`, via the claim
theorem. -/
theorem frame_distinct_ids_witness :
    (index_meeting stOne 2 "gamma".toList).meeting_notes 1 = stOne.meeting_notes 1
  ∧ (remove_meeting stOne 2).meeting_notes 1 = stOne.meeting_notes 1
  ∧ (∀ t, 1 ∈ (index_meeting stOne 2 "gamma".toList).index t ↔ 1 ∈ stOne.index t)
  ∧ (∀ t, 1 ∈ (remove_meeting stOne 2).index t ↔ 1 ∈ stOne.index t)
  ∧ (∀ q, 1 ∈ search_keywords (index_meeting stOne 2 "gamma".toList) q
        ↔ 1 ∈ search_keywords stOne q)
  ∧ (∀ q, 1 ∈ search_keywords (remove_meeting stOne 2) q
        ↔ 1 ∈ search_keywords stOne q) :=
  frame_distinct_ids stOne 2 1 "gamma".toList (by decide)

/-- Counterexample to C3 as stated: the state reached by indexing meeting
1 with text `"ab"` (whose single word run has length 2 and is filtered
out) is reachable with the caller discipline respected, has meeting 1 in
the document-text store, yet meeting 1 is in no posting set at all — so
"`doc_id` is in some non-empty posting entry iff it is in the
document-text store" fails in the store→postings direction. -/
theorem lockstep_iff_cex :
    Reachable (index_meeting initIndexer 1 "ab".toList)
  ∧ (index_meeting initIndexer 1 "ab".toList).meeting_notes 1 = some "ab".toList
  ∧ ∀ t, (index_meeting initIndexer 1 "ab".toList).index t = ∅ := by
  refine ⟨Reachable.add _ 1 _ Reachable.init rfl, rfl, ?_⟩
  intro t
  rw [index_meeting_index, if_neg]
  · rfl
  · rw [show tokenize "ab".toList = [] from by decide]
    exact List.not_mem_nil t

/-- C3 (amended): in every state reachable with the caller discipline, the
postings and the document-text store are in lockstep — an id is in the
posting set of token `t` iff its notes are stored and `t` is a token of
them; consequently an id is in some posting entry iff it is stored AND its
stored text tokenizes to a non-empty token list (a stored document whose
text yields no token of length `> 2` is in no posting set; only the
store→postings direction of the claimed iff had to be weakened in that
way). -/
theorem lockstep_invariant (st : KeywordIndexer) (h : Reachable st) :
    (∀ d t, d ∈ st.index t
        ↔ ∃ notes, st.meeting_notes d = some notes ∧ t ∈ tokenize notes)
  ∧ (∀ d, (∃ t, d ∈ st.index t)
        ↔ ∃ notes, st.meeting_notes d = some notes ∧ tokenize notes ≠ []) := by
  have hinv := reachable_strongInv h
  refine ⟨hinv, fun d => ?_⟩
  constructor
  · rintro ⟨t, ht⟩
    obtain ⟨n, hn, htok⟩ := (hinv d t).mp ht
    refine ⟨n, hn, fun hnil => ?_⟩
    rw [hnil] at htok
    exact List.not_mem_nil t htok
  · rintro ⟨n, hn, hne⟩
    obtain ⟨t, ht⟩ := List.exists_mem_of_ne_nil (tokenize n) hne
    exact ⟨t, (hinv d t).mpr ⟨n, hn, ht⟩⟩

/-- Witness for C3 (amended): the invariant instantiated on the concrete
reachable two-meeting state `stTwo`. -/
theorem lockstep_invariant_witness :
    (∀ d t, d ∈ stTwo.index t
        ↔ ∃ notes, stTwo.meeting_notes d = some notes ∧ t ∈ tokenize notes)
  ∧ (∀ d, (∃ t, d ∈ stTwo.index t)
        ↔ ∃ notes, stTwo.meeting_notes d = some notes ∧ tokenize notes ≠ []) :=
  lockstep_invariant stTwo (Reachable.add _ 2 _ (Reachable.add _ 1 _ Reachable.init rfl) rfl)

/-- Counterexample to C1 as stated: index meeting 1 with text `"alpha"`
and query `"alpha alpha"`.  The query has one distinct matching token, but
`get_relevant_notes` scores meeting 1 with 2 — each occurrence of a
repeated query token contributes 1, not at most 1 per distinct token. -/
theorem ranked_score_distinct_cex :
    get_relevant_notes (index_meeting initIndexer 1 "alpha".toList)
        "alpha alpha".toList 10
      = [(1, 2, "alpha".toList)]
  ∧ ((tokenize "alpha alpha".toList).dedup.filter
      (fun k => decide (1 ∈ (index_meeting initIndexer 1 "alpha".toList).index k))).length
      = 1 := by
  constructor
  · decide
  · decide

/-- C1 (amended): every entry returned by `get_relevant_notes` carries as
its score the number of query-token OCCURRENCES (a token repeated in the
query counts once per occurrence) whose posting set contains the meeting,
and that score is positive — meetings matching zero query tokens are
excluded from the result. -/
theorem ranked_score_occurrences (st : KeywordIndexer) (q : List Char) (limit : Int) :
    ∀ e ∈ get_relevant_notes st q limit,
      e.2.1 = ((tokenize q).filter (fun k => decide (e.1 ∈ st.index k))).length
        ∧ 0 < e.2.1 := by
  intro e he
  rw [get_relevant_notes_eq] at he
  rcases le_or_lt 0 limit with h | h
  · rw [pySlice_nonneg h] at he
    obtain ⟨-, hscore, -, hpos⟩ := takeRanked_entry he
    rw [hscore, scoreFold_eq]
    exact ⟨rfl, by rw [← scoreFold_eq]; exact hpos⟩
  · rw [pySlice_neg h] at he
    obtain ⟨-, hscore, -, hpos⟩ := takeRanked_entry he
    rw [hscore, scoreFold_eq]
    exact ⟨rfl, by rw [← scoreFold_eq]; exact hpos⟩

/-- Witness for C1 (amended): instantiated on the counterexample state and
query, membership discharged by computation. -/
theorem ranked_score_occurrences_witness :
    ((1, 2, "alpha".toList) : ℕ × ℕ × List Char).2.1
      = ((tokenize "alpha alpha".toList).filter
          (fun k => decide (((1, 2, "alpha".toList) : ℕ × ℕ × List Char).1
            ∈ (index_meeting initIndexer 1 "alpha".toList).index k))).length
  ∧ 0 < ((1, 2, "alpha".toList) : ℕ × ℕ × List Char).2.1 :=
  ranked_score_occurrences (index_meeting initIndexer 1 "alpha".toList)
    "alpha alpha".toList 10 (1, 2, "alpha".toList) (by decide)

/-- C6: for every well-formed index state, query, and limit `≥ 0`,
`get_relevant_notes` returns exactly `min limit n` results, where `n` is
the number of meetings with positive score (the candidate set is exactly
the positive-score meetings); the returned scores are sorted descending;
each entry carries the meeting's id, its score, and its full stored text;
and every scored meeting left out scores no more than any returned entry —
the returned meetings are the highest-scoring ones.  `limit = 0` yields
the empty sequence by the length equation. -/
theorem ranked_limit_nonneg (st : KeywordIndexer) (q : List Char) (limit : Int)
    (hl : 0 ≤ limit) (hwf : WellFormed st) :
    (∀ d, d ∈ candidateFold st (tokenize q) ↔ 0 < scoreFold st (tokenize q) d)
  ∧ (get_relevant_notes st q limit).length
      = min limit.toNat (candidateFold st (tokenize q)).card
  ∧ ((get_relevant_notes st q limit).map (fun e => e.2.1)).Sorted (fun a b => b ≤ a)
  ∧ (∀ e ∈ get_relevant_notes st q limit,
      e.1 ∈ candidateFold st (tokenize q) ∧ e.2.1 = scoreFold st (tokenize q) e.1
        ∧ ∃ notes, st.meeting_notes e.1 = some notes ∧ e.2.2 = notes)
  ∧ (∀ d ∈ candidateFold st (tokenize q),
      (∀ e ∈ get_relevant_notes st q limit, e.1 ≠ d) →
      ∀ e ∈ get_relevant_notes st q limit, scoreFold st (tokenize q) d ≤ e.2.1) := by
  have hrw : get_relevant_notes st q limit
      = ((rankedList st (tokenize q)).take limit.toNat).map
          (rankedEntry st (tokenize q)) := by
    rw [get_relevant_notes_eq, pySlice_nonneg hl]
  rw [hrw]
  refine ⟨?_, takeRanked_length st (tokenize q) limit.toNat,
    takeRanked_sorted st (tokenize q) limit.toNat, ?_, ?_⟩
  · intro d
    rw [mem_candidateFold, scoreFold_pos_iff]
  · intro e he
    obtain ⟨hC, hscore, htext, -⟩ := takeRanked_entry he
    refine ⟨hC, hscore, ?_⟩
    obtain ⟨k, -, hmem⟩ := (mem_candidateFold st (tokenize q) e.1).mp hC
    obtain ⟨notes, hn⟩ := hwf k e.1 hmem
    exact ⟨notes, hn, by rw [htext, hn]; rfl⟩
  · intro d hd hnot
    exact takeRanked_dominance hd hnot

/-- Witness for C6: instantiated on the concrete two-meeting state
`stTwo` with the spec's ranking query and limit 10, hypotheses discharged
by `decide` and reachability. -/
theorem ranked_limit_nonneg_witness :
    (∀ d, d ∈ candidateFold stTwo (tokenize "alpha beta gamma".toList)
        ↔ 0 < scoreFold stTwo (tokenize "alpha beta gamma".toList) d)
  ∧ (get_relevant_notes stTwo "alpha beta gamma".toList 10).length
      = min (10 : Int).toNat (candidateFold stTwo (tokenize "alpha beta gamma".toList)).card
  ∧ ((get_relevant_notes stTwo "alpha beta gamma".toList 10).map
      (fun e => e.2.1)).Sorted (fun a b => b ≤ a)
  ∧ (∀ e ∈ get_relevant_notes stTwo "alpha beta gamma".toList 10,
      e.1 ∈ candidateFold stTwo (tokenize "alpha beta gamma".toList)
        ∧ e.2.1 = scoreFold stTwo (tokenize "alpha beta gamma".toList) e.1
        ∧ ∃ notes, stTwo.meeting_notes e.1 = some notes ∧ e.2.2 = notes)
  ∧ (∀ d ∈ candidateFold stTwo (tokenize "alpha beta gamma".toList),
      (∀ e ∈ get_relevant_notes stTwo "alpha beta gamma".toList 10, e.1 ≠ d) →
      ∀ e ∈ get_relevant_notes stTwo "alpha beta gamma".toList 10,
        scoreFold stTwo (tokenize "alpha beta gamma".toList) d ≤ e.2.1) :=
  ranked_limit_nonneg stTwo "alpha beta gamma".toList 10 (by decide)
    (StrongInv.wellFormed (reachable_strongInv
      (Reachable.add _ 2 _ (Reachable.add _ 1 _ Reachable.init rfl) rfl)))

/-- C10: calling `get_relevant_notes` with a negative limit `-k`
(`0 < k ≤ n`, `n` the number of positive-score meetings) does not fail and
does not truncate to the empty sequence by default: the Python slice
`[:limit]` keeps the first `n - k` entries of the score-sorted list, i.e.
all scored meetings except the `k` lowest-ranked — every returned entry is
a positively scored meeting and every scored meeting left out scores no
more than any returned entry. -/
theorem ranked_negative_limit (st : KeywordIndexer) (q : List Char) (k : ℕ)
    (hk : 0 < k) (hkn : k ≤ (candidateFold st (tokenize q)).card) :
    (get_relevant_notes st q (-(k : Int))).length
      = (candidateFold st (tokenize q)).card - k
  ∧ (∀ e ∈ get_relevant_notes st q (-(k : Int)),
      e.2.1 = scoreFold st (tokenize q) e.1 ∧ 0 < e.2.1)
  ∧ (∀ d ∈ candidateFold st (tokenize q),
      (∀ e ∈ get_relevant_notes st q (-(k : Int)), e.1 ≠ d) →
      ∀ e ∈ get_relevant_notes st q (-(k : Int)),
        scoreFold st (tokenize q) d ≤ e.2.1) := by
  have hneg : (-(k : Int)) < 0 := by omega
  have hnat : (-(k : Int)).natAbs = k := by simp
  have hrw : get_relevant_notes st q (-(k : Int))
      = ((rankedList st (tokenize q)).take
          ((candidateFold st (tokenize q)).card - k)).map
          (rankedEntry st (tokenize q)) := by
    rw [get_relevant_notes_eq, pySlice_neg hneg, hnat, rankedList_length]
  rw [hrw]
  refine ⟨?_, ?_, ?_⟩
  · rw [takeRanked_length]
    omega
  · intro e he
    obtain ⟨-, hscore, -, hpos⟩ := takeRanked_entry he
    exact ⟨hscore, by rw [hscore]; exact hpos⟩
  · intro d hd hnot
    exact takeRanked_dominance hd hnot

/-- Witness for C10: `limit = -1` on the concrete two-meeting state
`stTwo` (two scored meetings) keeps only the top-ranked one; hypotheses
discharged by `decide`. -/
theorem ranked_negative_limit_witness :
    (get_relevant_notes stTwo "alpha beta gamma".toList (-(1 : Int))).length
      = (candidateFold stTwo (tokenize "alpha beta gamma".toList)).card - 1
  ∧ (∀ e ∈ get_relevant_notes stTwo "alpha beta gamma".toList (-(1 : Int)),
      e.2.1 = scoreFold stTwo (tokenize "alpha beta gamma".toList) e.1 ∧ 0 < e.2.1)
  ∧ (∀ d ∈ candidateFold stTwo (tokenize "alpha beta gamma".toList),
      (∀ e ∈ get_relevant_notes stTwo "alpha beta gamma".toList (-(1 : Int)), e.1 ≠ d) →
      ∀ e ∈ get_relevant_notes stTwo "alpha beta gamma".toList (-(1 : Int)),
        scoreFold stTwo (tokenize "alpha beta gamma".toList) d ≤ e.2.1) :=
  ranked_negative_limit stTwo "alpha beta gamma".toList 1 (by decide) (by decide)

end MeetingIndex
